import Mathlib

/-!
Verification of the poker card codec and hand evaluator
(src/javascript/common/cards.js, module poker.cards).

Cards are represented as integers 1..52 (card = suit + 4 * rank + 1 with
suit 0..3 = s/h/d/c and rank 0..12 = Two..Ace) and as 2-character strings
(suit character followed by rank character).  Sequences of cards are
base-53 composite integers.  The evaluator maps 5-card hands to strengths
1..7462 (smaller = stronger) and extends to 6/7 cards by a best-subset
search.

JavaScript semantics used by the embedding:
* number % k on possibly negative numbers is the truncating remainder,
  embedded as Int.tmod;
* Math.floor(x / k) is floor division, embedded as Int.fdiv;
* goog.asserts.assert / goog.asserts.fail throwing is embedded as Option
  with none for the thrown case;
* string concatenation with an undefined variable yields the text
  "undefined", embedded explicitly where the source can reach it.

The lookup tables of the module poker.hashtables (UNIQUE5, RANK_PRIMES,
PAIR, PAIR_ADJUST) are part of this repository but are not present under
src/; they are modelled from the spec where needed (see the doc comments
starting with "Modelled from the spec:").
-/

namespace Poker

/-- poker.cards.Ranks: rank characters for ranks outside 2..9, keyed by the
rank number (10..13 and 1 for Ace). -/
def Ranks (k : Int) : Option String :=
  if k = 10 then some "T"
  else if k = 11 then some "J"
  else if k = 12 then some "Q"
  else if k = 13 then some "K"
  else if k = 1 then some "A"
  else none

/-- Suit decoding switch of poker.cards.fromStringSingle_: the suit
character gives the suit index 0..3; an unknown character hits
goog.asserts.fail (none). -/
def suitVal (c : Char) : Option Nat :=
  if c = 's' then some 0
  else if c = 'h' then some 1
  else if c = 'd' then some 2
  else if c = 'c' then some 3
  else none

/-- Rank decoding branch of poker.cards.fromStringSingle_: digits 2..9
decode as parseInt(c) - 2, the characters T/J/Q/K/A as 8..12; anything
else hits goog.asserts.fail (none). -/
def rankVal (c : Char) : Option Nat :=
  if c ∈ ['2', '3', '4', '5', '6', '7', '8', '9'] then some (c.toNat - 50)
  else if c = 'T' then some 8
  else if c = 'J' then some 9
  else if c = 'Q' then some 10
  else if c = 'K' then some 11
  else if c = 'A' then some 12
  else none

/-- Core of poker.cards.fromStringSingle_ on the two characters read from
the card string: suit + 4 * rank + 1. -/
def fromStringSingleChars (c0 c1 : Char) : Option Nat :=
  (suitVal c0).bind fun st => (rankVal c1).map fun rk => st + 4 * rk + 1

/-- poker.cards.fromStringSingle_: reads cardStr[0] and cardStr[1]
(characters beyond index 1 are ignored, missing characters fail the
suit/rank switch) and decodes to the card integer. -/
def fromStringSingle_ (s : String) : Option Nat :=
  match s.data.get? 0, s.data.get? 1 with
  | some c0, some c1 => fromStringSingleChars c0 c1
  | _, _ => none

/-- Suit switch of poker.cards.toStringSingle_ on (cardNum - 1) % 4
(JavaScript truncating remainder).  The switch has no default case, so a
negative remainder leaves the suit variable undefined (none). -/
def jsSuitStr (cardNum : Int) : Option String :=
  if Int.tmod (cardNum - 1) 4 = 0 then some "s"
  else if Int.tmod (cardNum - 1) 4 = 1 then some "h"
  else if Int.tmod (cardNum - 1) 4 = 2 then some "d"
  else if Int.tmod (cardNum - 1) 4 = 3 then some "c"
  else none

/-- Rank number of poker.cards.toStringSingle_:
Math.floor((cardNum - 1) / 4) + 2, with 14 remapped to 1 (Ace). -/
def jsRankNum (cardNum : Int) : Int :=
  let r := Int.fdiv (cardNum - 1) 4 + 2
  if r = 14 then 1 else r

/-- Rank string of poker.cards.toStringSingle_: ranks 2..9 print as their
decimal digit (rankNum.toString()), other ranks go through the Ranks
table guarded by goog.asserts.assert (none when the lookup is
undefined). -/
def jsRankStr (cardNum : Int) : Option String :=
  let rn := jsRankNum cardNum
  if 2 ≤ rn ∧ rn ≤ 9 then some (Nat.repr rn.toNat) else Ranks rn

/-- poker.cards.toStringSingle_: suit string + rank string.  The rank
assertion failing is the only throwing path; an undefined suit is
stringified by JavaScript as "undefined" in the concatenation. -/
def toStringSingle_ (cardNum : Int) : Option String :=
  match jsRankStr cardNum with
  | none => none
  | some r => some ((jsSuitStr cardNum).getD "undefined" ++ r)

/-- The 2-character card strings accepted by fromStringSingle_: a suit
character followed by a rank character. -/
def IsCardStr (s : String) : Prop :=
  ∃ c0 c1, s.data = [c0, c1] ∧ (suitVal c0).isSome = true ∧ (rankVal c1).isSome = true

/-- Executable single-card round trip used by the decidable proofs:
encode the card integer, then decode the resulting 2-character string
back, and compare. -/
def singleRoundTrip (v : Nat) : Bool :=
  match toStringSingle_ (v : Int) with
  | some s => fromStringSingle_ s == some v
  | none => false

theorem singleRoundTrip_all : ∀ v : Nat, v < 52 → singleRoundTrip (v + 1) = true := by
  decide

theorem toStringSingle_none_of_ge (n : Int) (h : 53 ≤ n) : toStringSingle_ n = none := by
  have hr : 15 ≤ Int.fdiv (n - 1) 4 + 2 := by
    rw [Int.fdiv_eq_ediv _ (by omega : (0:Int) ≤ 4)]
    omega
  have hrn : jsRankNum n = Int.fdiv (n - 1) 4 + 2 := by
    unfold jsRankNum
    simp only []
    rw [if_neg (by omega)]
  have hstr : jsRankStr n = none := by
    unfold jsRankStr
    simp only [hrn]
    rw [if_neg (by omega), Ranks]
    rw [if_neg (by omega), if_neg (by omega), if_neg (by omega), if_neg (by omega),
      if_neg (by omega)]
  unfold toStringSingle_
  rw [hstr]

theorem toStringSingle_isSome (n : Int) (h1 : 1 ≤ n) (h2 : n ≤ 52) :
    (toStringSingle_ n).isSome = true := by
  have hv : n = ((n.toNat - 1 : Nat) + 1 : Nat) := by omega
  have hlt : n.toNat - 1 < 52 := by omega
  have := singleRoundTrip_all (n.toNat - 1) hlt
  rw [hv]
  unfold singleRoundTrip at this
  revert this
  cases toStringSingle_ (((n.toNat - 1 : Nat) + 1 : Nat) : Int) with
  | none => intro h; exact absurd h (by simp)
  | some s => intro _; rfl

/-- C2: for every integer n in [1,52], decoding the encoded string gives
back n; and for every valid 2-character card string s (suit then rank),
encoding the decoded integer gives back s.  Together these make the
single-card codec a bijection between the 52 valid strings and [1,52]. -/
theorem card_codec_round_trip :
    (∀ n : Nat, 1 ≤ n → n ≤ 52 →
      (toStringSingle_ (n : Int)).bind fromStringSingle_ = some n) ∧
    (∀ s : String, IsCardStr s →
      (fromStringSingle_ s).bind (fun m => toStringSingle_ (m : Int)) = some s) := by
  constructor
  · intro n h1 h2
    have hv : (n : Int) = ((n - 1 : Nat) + 1 : Nat) := by omega
    have hlt : n - 1 < 52 := by omega
    have h := singleRoundTrip_all (n - 1) hlt
    unfold singleRoundTrip at h
    rw [hv]
    revert h
    cases htos : toStringSingle_ (((n - 1 : Nat) + 1 : Nat) : Int) with
    | none => intro h; exact absurd h (by simp)
    | some s =>
      intro h
      have hdec : fromStringSingle_ s = some ((n - 1) + 1) := beq_iff_eq.mp h
      simp only [Option.some_bind, hdec]
      congr 1
      omega
  · intro s hs
    obtain ⟨c0, c1, hdata, hsuit, hrank⟩ := hs
    have hseq : s = ⟨[c0, c1]⟩ := String.ext hdata
    subst hseq
    have hc0 : c0 = 's' ∨ c0 = 'h' ∨ c0 = 'd' ∨ c0 = 'c' := by
      by_contra hc
      push_neg at hc
      obtain ⟨h1, h2, h3, h4⟩ := hc
      unfold suitVal at hsuit
      rw [if_neg h1, if_neg h2, if_neg h3, if_neg h4] at hsuit
      simp at hsuit
    have hc1 : c1 ∈ ['2', '3', '4', '5', '6', '7', '8', '9', 'T', 'J', 'Q', 'K', 'A'] := by
      by_contra hc
      simp only [List.mem_cons, List.not_mem_nil, or_false] at hc
      push_neg at hc
      obtain ⟨h1, h2, h3, h4, h5, h6, h7, h8, h9, h10, h11, h12, h13⟩ := hc
      unfold rankVal at hrank
      rw [if_neg (by simp [h1, h2, h3, h4, h5, h6, h7, h8]),
        if_neg h9, if_neg h10, if_neg h11, if_neg h12, if_neg h13] at hrank
      simp at hrank
    simp only [List.mem_cons, List.not_mem_nil, or_false] at hc1
    rcases hc0 with h | h | h | h <;> subst h <;>
      rcases hc1 with h | h | h | h | h | h | h | h | h | h | h | h | h <;> subst h <;> decide

/-- C4 as stated is false: the counterexample below.  Amended claim
(theorem olc4_amended): encodeCard succeeds for every n in [1,52] and
fails for every n greater than 52; but for n below 1 it does not
reliably fail, e.g. encodeCard(0) returns the junk string "undefinedA"
(undefined suit concatenated with rank character A). -/
theorem toStringSingle_zero_counterexample :
    ¬ (1 ≤ (0 : Int) ∧ (0 : Int) ≤ 52) ∧ toStringSingle_ 0 = some "undefinedA" := by
  constructor
  · decide
  · decide

/-- C4 amended: encodeCard fails (with the rank assertion) for every
integer greater than 52 and succeeds for every integer in [1,52]; the
counterexample at 0 shows integers below 1 are not covered by the
failure guarantee. -/
theorem toStringSingle_range (n : Int) :
    (53 ≤ n → toStringSingle_ n = none) ∧
    (1 ≤ n → n ≤ 52 → (toStringSingle_ n).isSome = true) := by
  exact ⟨toStringSingle_none_of_ge n, toStringSingle_isSome n⟩

theorem toStringSingle_range_witness :
    toStringSingle_ 60 = none ∧ (toStringSingle_ 49).isSome = true := by
  exact ⟨(toStringSingle_range 60).1 (by omega), (toStringSingle_range 49).2 (by omega) (by omega)⟩

theorem card_codec_round_trip_witness :
    (toStringSingle_ ((49 : Nat) : Int)).bind fromStringSingle_ = some 49 ∧
    (fromStringSingle_ "sA").bind (fun m => toStringSingle_ (m : Int)) = some "sA" := by
  refine ⟨card_codec_round_trip.1 49 (by omega) (by omega), ?_⟩
  exact card_codec_round_trip.2 "sA" ⟨'s', 'A', rfl, by decide, by decide⟩

/-! ### Composite card sequences (base 53) -/

/-- Fuel-indexed base-53 digit extraction; the fuel only serves to make the
recursion structural, digits53 below supplies enough fuel for any input. -/
def digits53F : Nat → Nat → List Nat
  | 0, _ => []
  | fuel + 1, n => if n = 0 then [] else n % 53 :: digits53F fuel (n / 53)

/-- Digit loop shared by poker.cards.toString and poker.cards.evalHand:
repeatedly take cardsNum % 53 and divide by 53 (floor) until 0, collecting
the digits least-significant first. -/
def digits53 (n : Nat) : List Nat := digits53F n n

theorem digits53F_congr : ∀ f1 f2 n, n ≤ f1 → n ≤ f2 → digits53F f1 n = digits53F f2 n := by
  intro f1
  induction f1 with
  | zero =>
    intro f2 n h1 _
    have : n = 0 := by omega
    subst this
    cases f2 <;> simp [digits53F]
  | succ f ih =>
    intro f2 n h1 h2
    cases f2 with
    | zero =>
      have : n = 0 := by omega
      subst this
      simp [digits53F]
    | succ g =>
      by_cases hn : n = 0
      · subst hn; simp [digits53F]
      · have hd : n / 53 < n := Nat.div_lt_self (by omega) (by omega)
        simp only [digits53F, if_neg hn]
        rw [ih g (n / 53) (by omega) (by omega)]

theorem digits53_succ (n : Nat) (h : n ≠ 0) : digits53 n = n % 53 :: digits53 (n / 53) := by
  cases n with
  | zero => exact absurd rfl h
  | succ m =>
    show digits53F (m + 1) (m + 1) = _
    simp only [digits53F, if_neg h]
    have hd : (m + 1) / 53 < m + 1 := Nat.div_lt_self (by omega) (by omega)
    rw [digits53F_congr m ((m + 1) / 53) ((m + 1) / 53) (by omega) (by omega)]
    rfl

/-- Accumulator loop of poker.cards.fromString: cardsNum mapsto
cardsNum * 53 + card for each decoded 2-character chunk, left to right.
A trailing odd character cannot be split into a chunk (none). -/
def fromStringAux : List Char → Nat → Option Nat
  | [], acc => some acc
  | [_], _ => none
  | c0 :: c1 :: rest, acc =>
    match fromStringSingleChars c0 c1 with
    | none => none
    | some v => fromStringAux rest (acc * 53 + v)

/-- poker.cards.fromString: asserts the length is even, then folds the
2-character chunks into the base-53 composite code. -/
def fromString (s : String) : Option Nat :=
  if s.data.length % 2 = 0 then fromStringAux s.data 0 else none

/-- String collection loop of poker.cards.toString: encode each base-53
digit, least-significant first; a failing single-card encoding aborts
(none). -/
def toStrings : List Nat → Option (List String)
  | [] => some []
  | d :: rest =>
    match toStringSingle_ (d : Int) with
    | none => none
    | some str => (toStrings rest).map (fun l => str :: l)

/-- poker.cards.toString: collect the per-digit strings, then reverse to
most-significant-first order and join. -/
def toString (cardsNum : Nat) : Option String :=
  (toStrings (digits53 cardsNum)).map (fun strs => String.join strs.reverse)

/-- Base-53 fold of a card list, most significant card first: the
composite code that poker.cards.fromString produces for that list. -/
def fold53 (cs : List Nat) : Nat := cs.foldl (fun a c => a * 53 + c) 0

/-- A 2-character string chunk decoding to card value v. -/
def ChunkDec (p : String) (v : Nat) : Prop :=
  ∃ c0 c1, p.data = [c0, c1] ∧ fromStringSingleChars c0 c1 = some v

theorem join_cons (s : String) (L : List String) :
    String.join (s :: L) = s ++ String.join L := by
  have key : ∀ (M : List String) (a : String),
      List.foldl (fun r t => r ++ t) a M = a ++ List.foldl (fun r t => r ++ t) "" M := by
    intro M
    induction M with
    | nil => intro a; simp [String.append_empty]
    | cons x xs ih =>
      intro a
      simp only [List.foldl_cons]
      rw [ih (a ++ x), ih (("" : String) ++ x), String.empty_append, String.append_assoc]
  show List.foldl (fun r t => r ++ t) "" (s :: L) = _
  simp only [List.foldl_cons]
  rw [key L (("" : String) ++ s), String.empty_append]
  rfl

theorem fold53_acc (cs : List Nat) :
    ∀ acc, List.foldl (fun a c => a * 53 + c) acc cs =
      cs.foldl (fun a c => a * 53 + c) 0 + acc * 53 ^ cs.length := by
  induction cs with
  | nil => intro acc; simp
  | cons c rest ih =>
    intro acc
    simp only [List.foldl_cons, List.length_cons, Nat.zero_mul, Nat.zero_add]
    rw [ih (acc * 53 + c), ih c]
    ring

theorem fold53_pos (cs : List Nat) (hne : cs ≠ []) (hv : ∀ c ∈ cs, 1 ≤ c) :
    0 < fold53 cs := by
  cases cs with
  | nil => exact absurd rfl hne
  | cons c rest =>
    have hc : 1 ≤ c := hv c (List.mem_cons_self c rest)
    show 0 < List.foldl (fun a c => a * 53 + c) (0 * 53 + c) rest
    rw [fold53_acc rest (0 * 53 + c)]
    have : 0 < (0 * 53 + c) * 53 ^ rest.length := by positivity
    omega

theorem digits_fold (cs : List Nat) (hv : ∀ c ∈ cs, 1 ≤ c ∧ c ≤ 52) :
    digits53 (fold53 cs) = cs.reverse := by
  induction cs using List.reverseRecOn with
  | nil => rfl
  | append_singleton ds c ih =>
    have hc : 1 ≤ c ∧ c ≤ 52 := hv c (by simp)
    have hds : ∀ x ∈ ds, 1 ≤ x ∧ x ≤ 52 := fun x hx => hv x (by simp [hx])
    have hfold : fold53 (ds ++ [c]) = fold53 ds * 53 + c := by
      unfold fold53
      rw [List.foldl_append]
      rfl
    have hne : fold53 (ds ++ [c]) ≠ 0 := by omega
    rw [digits53_succ _ hne, hfold]
    have hmod : (fold53 ds * 53 + c) % 53 = c := by omega
    have hdiv : (fold53 ds * 53 + c) / 53 = fold53 ds := by omega
    rw [hmod, hdiv, ih hds, List.reverse_append]
    rfl

theorem fromStringAux_join :
    ∀ {parts : List String} {vs : List Nat}, List.Forall₂ ChunkDec parts vs →
    ∀ acc, fromStringAux (String.join parts).data acc =
      some (vs.foldl (fun a c => a * 53 + c) acc) := by
  intro parts vs h
  induction h with
  | nil => intro acc; rfl
  | @cons p v parts' vs' hpv _ ih =>
    intro acc
    obtain ⟨c0, c1, hdata, hdec⟩ := hpv
    rw [join_cons, String.data_append, hdata]
    show fromStringAux (c0 :: c1 :: (String.join parts').data) acc = _
    unfold fromStringAux
    rw [hdec]
    exact ih (acc * 53 + v)

theorem join_data_length :
    ∀ {parts : List String} {vs : List Nat}, List.Forall₂ ChunkDec parts vs →
    (String.join parts).data.length = 2 * parts.length := by
  intro parts vs h
  induction h with
  | nil => rfl
  | @cons p v parts' vs' hpv _ ih =>
    obtain ⟨c0, c1, hdata, _⟩ := hpv
    rw [join_cons, String.data_append, hdata]
    simp only [List.length_append, List.length_cons, List.length_nil, ih]
    omega

theorem suitVal_le (c : Char) (st : Nat) (h : suitVal c = some st) : st ≤ 3 := by
  unfold suitVal at h
  split_ifs at h
  all_goals first
  | (have hh := Option.some.inj h; omega)
  | simp at h

theorem rankVal_le (c : Char) (rk : Nat) (h : rankVal c = some rk) : rk ≤ 12 := by
  unfold rankVal at h
  split_ifs at h with h1
  · have hh := Option.some.inj h
    simp only [List.mem_cons, List.not_mem_nil, or_false] at h1
    rcases h1 with rfl | rfl | rfl | rfl | rfl | rfl | rfl | rfl <;>
      exact hh ▸ (by decide)
  all_goals first
  | (have hh := Option.some.inj h; omega)
  | simp at h

theorem forall₂_chunk_mem_right :
    ∀ {l1 : List String} {l2 : List Nat}, List.Forall₂ ChunkDec l1 l2 →
    ∀ v ∈ l2, ∃ p, ChunkDec p v := by
  intro l1 l2 h
  induction h with
  | nil => intro v hv; exact absurd hv (List.not_mem_nil v)
  | @cons p w l1t l2t hpw _ ih =>
    intro v hv
    rcases List.mem_cons.mp hv with rfl | hv2
    · exact ⟨p, hpw⟩
    · exact ih v hv2

theorem chunk_value_range (p : String) (v : Nat) (h : ChunkDec p v) : 1 ≤ v ∧ v ≤ 52 := by
  obtain ⟨c0, c1, _, hdec⟩ := h
  unfold fromStringSingleChars at hdec
  cases hst : suitVal c0 with
  | none => rw [hst] at hdec; simp at hdec
  | some st =>
    cases hrk : rankVal c1 with
    | none => rw [hst, hrk] at hdec; simp at hdec
    | some rk =>
      rw [hst, hrk] at hdec
      simp at hdec
      have h1 := suitVal_le c0 st hst
      have h2 := rankVal_le c1 rk hrk
      omega

theorem cardstr_chunk (p : String) (h : IsCardStr p) : ∃ v, ChunkDec p v := by
  obtain ⟨c0, c1, hdata, hsuit, hrank⟩ := h
  obtain ⟨st, hst⟩ := Option.isSome_iff_exists.mp hsuit
  obtain ⟨rk, hrk⟩ := Option.isSome_iff_exists.mp hrank
  exact ⟨st + 4 * rk + 1, c0, c1, hdata, by unfold fromStringSingleChars; rw [hst, hrk]; rfl⟩

theorem decode_parts (parts : List String) (h : ∀ p ∈ parts, IsCardStr p) :
    ∃ vs, List.Forall₂ ChunkDec parts vs := by
  induction parts with
  | nil => exact ⟨[], List.Forall₂.nil⟩
  | cons p rest ih =>
    obtain ⟨v, hv⟩ := cardstr_chunk p (h p (List.mem_cons_self p rest))
    obtain ⟨vs, hvs⟩ := ih (fun q hq => h q (List.mem_cons_of_mem p hq))
    exact ⟨v :: vs, List.Forall₂.cons hv hvs⟩

/-- Shape-and-decode check for a character list: exactly 2 characters
that decode back to the given card value. -/
def chunkCheck (l : List Char) (v : Nat) : Bool :=
  match l with
  | [c0, c1] => fromStringSingleChars c0 c1 == some v
  | _ => false

/-- Stronger executable single-card encoding check used for the sequence
round trip: the encoded string is exactly 2 characters and decodes back. -/
def singleEncodeOk (v : Nat) : Bool :=
  match toStringSingle_ (v : Int) with
  | some s => chunkCheck s.data v
  | none => false

theorem singleEncodeOk_all : ∀ v : Nat, v < 52 → singleEncodeOk (v + 1) = true := by
  decide

theorem encode_chunk (v : Nat) (h1 : 1 ≤ v) (h2 : v ≤ 52) :
    ∃ s, toStringSingle_ (v : Int) = some s ∧ ChunkDec s v := by
  have hv : v = (v - 1) + 1 := by omega
  have h := singleEncodeOk_all (v - 1) (by omega)
  rw [← hv] at h
  unfold singleEncodeOk at h
  revert h
  cases htos : toStringSingle_ (v : Int) with
  | none => intro h; exact absurd h (by simp)
  | some s =>
    intro h
    have h2 : chunkCheck s.data v = true := h
    cases hdata : s.data with
    | nil => rw [hdata] at h2; exact absurd h2 (by simp [chunkCheck])
    | cons c0 tail =>
      cases tail with
      | nil => rw [hdata] at h2; exact absurd h2 (by simp [chunkCheck])
      | cons c1 tail2 =>
        cases tail2 with
        | nil =>
          rw [hdata] at h2
          have h3 : fromStringSingleChars c0 c1 == some v := h2
          exact ⟨s, rfl, c0, c1, hdata, beq_iff_eq.mp h3⟩
        | cons c2 tail3 => rw [hdata] at h2; exact absurd h2 (by simp [chunkCheck])

theorem toStrings_of_valid (ws : List Nat) (h : ∀ v ∈ ws, 1 ≤ v ∧ v ≤ 52) :
    ∃ strs, toStrings ws = some strs ∧ List.Forall₂ ChunkDec strs ws := by
  induction ws with
  | nil => exact ⟨[], rfl, List.Forall₂.nil⟩
  | cons v rest ih =>
    have hv := h v (List.mem_cons_self v rest)
    obtain ⟨s, hs, hchunk⟩ := encode_chunk v hv.1 hv.2
    obtain ⟨strs, hstrs, hF⟩ := ih (fun w hw => h w (List.mem_cons_of_mem v hw))
    refine ⟨s :: strs, ?_, List.Forall₂.cons hchunk hF⟩
    unfold toStrings
    rw [hs, hstrs]
    rfl

/-- C5: for every string that is a concatenation of 1 to 7 valid
2-character cards, decodeSequence succeeds giving some code n,
encodeSequence maps n back to a string, and decodeSequence of that string
is again n — encodeSequence is a right inverse of decodeSequence on codes
produced by decodeSequence. -/
theorem sequence_round_trip (parts : List String) (hne : parts ≠ [])
    (hlen : parts.length ≤ 7) (hvalid : ∀ p ∈ parts, IsCardStr p) :
    ∃ n s2, fromString (String.join parts) = some n ∧
      Poker.toString n = some s2 ∧ fromString s2 = some n := by
  obtain ⟨vs, hF⟩ := decode_parts parts hvalid
  have hvrange : ∀ v ∈ vs, 1 ≤ v ∧ v ≤ 52 := by
    intro v hv
    obtain ⟨p, hpv⟩ := forall₂_chunk_mem_right hF v hv
    exact chunk_value_range p v hpv
  refine ⟨fold53 vs, ?_⟩
  have hdec1 : fromString (String.join parts) = some (fold53 vs) := by
    unfold fromString
    rw [if_pos (by rw [join_data_length hF]; omega)]
    exact fromStringAux_join hF 0
  have hdig : digits53 (fold53 vs) = vs.reverse := digits_fold vs hvrange
  obtain ⟨strs, hstrs, hF2⟩ := toStrings_of_valid vs.reverse
    (by intro v hv; exact hvrange v (List.mem_reverse.mp hv))
  have hF2r : List.Forall₂ ChunkDec strs.reverse vs := by
    have := List.forall₂_reverse_iff.mpr hF2
    rwa [List.reverse_reverse] at this
  refine ⟨String.join strs.reverse, hdec1, ?_, ?_⟩
  · show Poker.toString (fold53 vs) = some (String.join strs.reverse)
    unfold Poker.toString
    rw [hdig, hstrs]
    rfl
  · unfold fromString
    rw [if_pos (by rw [join_data_length hF2r]; omega)]
    rw [fromStringAux_join hF2r 0]
    rfl

theorem sequence_round_trip_witness :
    ∃ n s2, fromString (String.join ["sA"]) = some n ∧
      Poker.toString n = some s2 ∧ fromString s2 = some n := by
  refine sequence_round_trip ["sA"] (by simp) (by simp) ?_
  intro p hp
  simp only [List.mem_singleton] at hp
  subst hp
  exact ⟨'s', 'A', rfl, by decide, by decide⟩

/-! ### The 5-card evaluator

The evaluator logic (rank mask, flush check, prime product, subset
search) is embedded from poker.cards.eval5Cards_ and poker.cards.evalHand.
The lookup tables it reads belong to the module poker.hashtables, whose
source is not under src/, so the tables are modelled from the spec
(section 4.3 of the spec gives their construction contract). -/

/-- Modelled from the spec: poker.hashtables.RANK_PRIMES, missing from
src/.  "RankPrimeTable (leaf data): maps each of the 13 card ranks to a
distinct small prime", indexed by rank_index 0 = Two .. 12 = Ace. -/
def RANK_PRIMES : List Nat := [2, 3, 5, 7, 11, 13, 17, 19, 23, 29, 31, 37, 41]

/-- The ten 13-bit rank masks that are straights, strongest (Ace high)
first, ending with the wheel A-5-4-3-2. -/
def straightList : List Nat := [7936, 3968, 1984, 992, 496, 248, 124, 62, 31, 4111]

/-- Bits of a 13-bit mask in ascending order. -/
def bitsAsc (m : Nat) : List Nat := (List.range 13).filter (fun i => m.testBit i)

/-- Number of bits set in a 13-bit mask. -/
def maskBits (m : Nat) : Nat := (bitsAsc m).length

/-- Colexicographic rank of a bit set: with bits b1 < b2 < ... listed
ascending, sum of choose(bi, i).  Among the 5-bit masks this counts the
masks that are numerically smaller, which for distinct-rank hands is
exactly the standard poker kicker comparison. -/
def colexAux : List Nat → Nat → Nat
  | [], _ => 0
  | b :: rest, k => Nat.choose b k + colexAux rest (k + 1)

/-- Colexicographic rank of a mask (see colexAux). -/
def colexRank (m : Nat) : Nat := colexAux (bitsAsc m) 1

/-- Number of straight masks numerically above the given mask. -/
def straightsAbove (m : Nat) : Nat := (straightList.filter (fun s => m < s)).length

/-- Modelled from the spec: poker.hashtables.UNIQUE5, missing from src/.
Spec 4.3: the table is keyed by the 13-bit rank-presence mask and holds a
value exactly for masks of 5 pairwise distinct ranks, biased into bands:
values below 1610 for the straight-capable patterns (1600 strongest
straight .. 1609 the wheel), and the band starting at 6186 for the other
patterns, ordered by the standard kicker comparison (for distinct ranks
this is numeric mask comparison), so that subtracting the flush offset
5863 yields the flush strengths and the raw value the high-card
strengths. -/
def UNIQUE5 (m : Nat) : Nat :=
  if m < 8192 ∧ m ∈ straightList then 1600 + List.indexOf m straightList
  else if m < 8192 ∧ maskBits m = 5 then 6186 + (1286 - colexRank m) - straightsAbove m
  else 0

/-- Fuel-indexed prime multiplicity (the fuel makes the recursion
structural; pMult supplies enough fuel). -/
def pMultF : Nat → Nat → Nat → Nat
  | 0, _, _ => 0
  | f + 1, p, n => if 2 ≤ p ∧ 0 < n ∧ p ∣ n then pMultF f p (n / p) + 1 else 0

/-- Multiplicity of prime p in n. -/
def pMult (p n : Nat) : Nat := pMultF n p n

/-- Position of rank r among the 12 ranks different from t, ascending. -/
def pos12 (t r : Nat) : Nat := if r < t then r else r - 1

/-- Exponent of each of the 13 rank primes in a prime product. -/
def countsOf (product : Nat) : List Nat := RANK_PRIMES.map (fun p => pMult p product)

/-- Ranks whose prime occurs exactly k times in the product. -/
def ranksWithCount (counts : List Nat) (k : Nat) : List Nat :=
  (List.range 13).filter (fun r => counts.getD r 0 = k)

/-- Modelled from the spec: the composite behavior of
poker.hashtables.PAIR and poker.hashtables.PAIR_ADJUST (missing from
src/) together with the multiplicative hash of eval5Cards_.  Spec 4.3:
a two-stage perfect hash keyed by the prime product of the 5 ranks,
collision-free, returning the canonical strength of the repeated-rank
class: quads 11..166, full houses 167..322, trips 1610..2467, two pairs
2468..3325, one pairs 3326..6185, each class ordered by the standard
kicker comparison (higher quad/trips/pair rank first, then kickers
descending).  Since prime factorisation is unique, the hash is a function
of the product alone; products that encode no 5-card rank multiset with a
repeat fall outside the perfect-hash key set (0 here). -/
def pairLookup (product : Nat) : Nat :=
  let counts := countsOf product
  match ranksWithCount counts 4, ranksWithCount counts 3,
        ranksWithCount counts 2, ranksWithCount counts 1 with
  | [q], [], [], [k] =>
    11 + (12 - q) * 12 + ((List.range 13).filter (fun r => r ≠ q ∧ k < r)).length
  | [], [t], [p], [] =>
    167 + (12 - t) * 12 + ((List.range 13).filter (fun r => r ≠ t ∧ p < r)).length
  | [], [t], [], [b, a] =>
    1610 + (12 - t) * 66 + (65 - (Nat.choose (pos12 t a) 2 + Nat.choose (pos12 t b) 1))
  | [], [], [p2, p1], [k] =>
    2468 + (77 - (Nat.choose p1 2 + Nat.choose p2 1)) * 11 +
      ((List.range 13).filter (fun r => r ≠ p1 ∧ r ≠ p2 ∧ k < r)).length
  | [], [], [p], [c, b, a] =>
    3326 + (12 - p) * 220 +
      (219 - (Nat.choose (pos12 p a) 3 + Nat.choose (pos12 p b) 2 + Nat.choose (pos12 p c) 1))
  | _, _, _, _ => 0

/-- Rank-mask loop of poker.cards.eval5Cards_:
rankBits |= 1 << (cards[i] - 1) / 4 (the JavaScript shift count is
truncated to the integer floor((c - 1) / 4)). -/
def rankMask (cards : List Nat) : Nat :=
  cards.foldl (fun b c => b ||| (1 <<< ((c - 1) / 4))) 0

/-- Flush loop of poker.cards.eval5Cards_: compare cards[i] % 4 of every
later card against cards[0] % 4. -/
def flushCheck (cards : List Nat) : Bool :=
  match cards with
  | [] => true
  | c0 :: rest => rest.all (fun c => c % 4 == c0 % 4)

/-- Prime-product loop of poker.cards.eval5Cards_:
product *= RANK_PRIMES[floor((cards[i] - 1) / 4)]. -/
def primeProduct (cards : List Nat) : Nat :=
  cards.foldl (fun pr c => pr * RANK_PRIMES.getD ((c - 1) / 4) 0) 1

/-- poker.cards.eval5Cards_: a nonzero UNIQUE5 entry (no repeated rank)
selects the straight-flush / flush / straight-or-high-card banding by the
flush check; otherwise the repeated-rank strength comes from the
perfect-hash lookup keyed by the prime product. -/
def eval5Cards_ (cards : List Nat) : Nat :=
  let unique5 := UNIQUE5 (rankMask cards)
  if unique5 ≠ 0 then
    if flushCheck cards then
      if unique5 < 1610 then unique5 - 1599 else unique5 - 5863
    else unique5
  else pairLookup (primeProduct cards)

theorem rankMask_testBit (l : List Nat) (i : Nat) :
    ((rankMask l).testBit i = true) ↔ ∃ c ∈ l, (c - 1) / 4 = i := by
  have aux : ∀ (l : List Nat) (b : Nat),
      ((l.foldl (fun b c => b ||| (1 <<< ((c - 1) / 4))) b).testBit i = true) ↔
      (b.testBit i = true ∨ ∃ c ∈ l, (c - 1) / 4 = i) := by
    intro l
    induction l with
    | nil => intro b; simp
    | cons c rest ih =>
      intro b
      simp only [List.foldl_cons]
      rw [ih]
      rw [Nat.one_shiftLeft]
      constructor
      · rintro (hb | hrest)
        · rw [Nat.testBit_or] at hb
          rcases Bool.or_eq_true_iff.mp hb with hb2 | hb2
          · exact Or.inl hb2
          · rw [Nat.testBit_two_pow] at hb2
            exact Or.inr ⟨c, List.mem_cons_self c rest, of_decide_eq_true hb2⟩
        · obtain ⟨d, hd, hdi⟩ := hrest
          exact Or.inr ⟨d, List.mem_cons_of_mem c hd, hdi⟩
      · rintro (hb | ⟨d, hd, hdi⟩)
        · left
          rw [Nat.testBit_or, hb]
          rfl
        · rcases List.mem_cons.mp hd with rfl | hd2
          · left
            rw [Nat.testBit_or, Nat.testBit_two_pow]
            simp [hdi]
          · exact Or.inr ⟨d, hd2, hdi⟩
  unfold rankMask
  rw [aux l 0]
  simp [Nat.zero_testBit]

theorem rankMask_lt (l : List Nat) (hv : ∀ c ∈ l, 1 ≤ c ∧ c ≤ 52) :
    rankMask l < 8192 := by
  have aux : ∀ (l : List Nat) (b : Nat), b < 8192 → (∀ c ∈ l, 1 ≤ c ∧ c ≤ 52) →
      l.foldl (fun b c => b ||| (1 <<< ((c - 1) / 4))) b < 8192 := by
    intro l
    induction l with
    | nil => intro b hb _; exact hb
    | cons c rest ih =>
      intro b hb hv2
      simp only [List.foldl_cons]
      apply ih
      · have hc := hv2 c (List.mem_cons_self c rest)
        have hr : (c - 1) / 4 ≤ 12 := by omega
        have h1 : (1 <<< ((c - 1) / 4)) < 2 ^ 13 := by
          rw [Nat.one_shiftLeft]
          exact lt_of_le_of_lt (Nat.pow_le_pow_right (by omega) hr) (by norm_num)
        have h2 : b < 2 ^ 13 := by omega
        have h3 := Nat.or_lt_two_pow h2 h1
        omega
      · exact fun d hd => hv2 d (List.mem_cons_of_mem c hd)
  exact aux l 0 (by omega) hv

/-- C6: for every 5-card hand of cards in [1,52], the rank mask computed
by the OR-accumulation of 1 << rank_index is the 13-bit mask (value below
2^13) whose bit i is set iff some card c of the hand has rank index
floor((c - 1) / 4) = i. -/
theorem rank_mask_correct (l : List Nat) (hlen : l.length = 5)
    (hv : ∀ c ∈ l, 1 ≤ c ∧ c ≤ 52) :
    rankMask l < 8192 ∧
    ∀ i, ((rankMask l).testBit i = true ↔ ∃ c ∈ l, (c - 1) / 4 = i) := by
  exact ⟨rankMask_lt l hv, fun i => rankMask_testBit l i⟩

theorem rank_mask_correct_witness :
    rankMask [49, 45, 41, 37, 33] < 8192 ∧
    ∀ i, ((rankMask [49, 45, 41, 37, 33]).testBit i = true ↔
      ∃ c ∈ [49, 45, 41, 37, 33], (c - 1) / 4 = i) := by
  exact rank_mask_correct [49, 45, 41, 37, 33] (by decide) (by decide)

theorem flushCheck_iff_pairwise (l : List Nat) (hne : l ≠ []) :
    (flushCheck l = true ↔ ∀ x ∈ l, ∀ y ∈ l, x % 4 = y % 4) := by
  cases l with
  | nil => exact absurd rfl hne
  | cons c0 rest =>
    show (rest.all (fun c => c % 4 == c0 % 4) = true ↔ _)
    rw [List.all_eq_true]
    constructor
    · intro h x hx y hy
      have key : ∀ z ∈ c0 :: rest, z % 4 = c0 % 4 := by
        intro z hz
        rcases List.mem_cons.mp hz with rfl | hz2
        · rfl
        · exact beq_iff_eq.mp (h z hz2)
      rw [key x hx, key y hy]
    · intro h c hc
      exact beq_iff_eq.mpr
        (h c (List.mem_cons_of_mem c0 hc) c0 (List.mem_cons_self c0 rest))

theorem pairwise_suit_iff (l : List Nat) (hv : ∀ c ∈ l, 1 ≤ c ∧ c ≤ 52) :
    (∀ x ∈ l, ∀ y ∈ l, x % 4 = y % 4) ↔
    (∀ x ∈ l, ∀ y ∈ l, (x - 1) % 4 = (y - 1) % 4) := by
  constructor
  · intro h x hx y hy
    have h1 := hv x hx
    have h2 := hv y hy
    have := h x hx y hy
    omega
  · intro h x hx y hy
    have h1 := hv x hx
    have h2 := hv y hy
    have := h x hx y hy
    omega

/-- C7: for 5 cards in [1,52], the source's flush check (all cards agree
on c % 4 with the first card) succeeds iff all cards agree pairwise on
c % 4, iff all cards agree pairwise on the suit index (c - 1) % 4 — i.e.
iff all 5 cards have the same suit; the two suit-extraction formulas give
equivalent all-equal tests. -/
theorem flush_check_equiv (l : List Nat) (hlen : l.length = 5)
    (hv : ∀ c ∈ l, 1 ≤ c ∧ c ≤ 52) :
    (flushCheck l = true ↔ ∀ x ∈ l, ∀ y ∈ l, x % 4 = y % 4) ∧
    (flushCheck l = true ↔ ∀ x ∈ l, ∀ y ∈ l, (x - 1) % 4 = (y - 1) % 4) := by
  have hne : l ≠ [] := by intro h; rw [h] at hlen; exact absurd hlen (by decide)
  have h1 := flushCheck_iff_pairwise l hne
  exact ⟨h1, h1.trans (pairwise_suit_iff l hv)⟩

theorem flush_check_equiv_witness :
    (flushCheck [49, 45, 41, 37, 33] = true ↔
      ∀ x ∈ [49, 45, 41, 37, 33], ∀ y ∈ [49, 45, 41, 37, 33], x % 4 = y % 4) ∧
    (flushCheck [49, 45, 41, 37, 33] = true ↔
      ∀ x ∈ [49, 45, 41, 37, 33], ∀ y ∈ [49, 45, 41, 37, 33],
        (x - 1) % 4 = (y - 1) % 4) := by
  exact flush_check_equiv [49, 45, 41, 37, 33] (by decide) (by decide)

theorem maskBits_of_nodup (l : List Nat) (hlen : l.length = 5)
    (hv : ∀ c ∈ l, 1 ≤ c ∧ c ≤ 52)
    (hnd : (l.map (fun c => (c - 1) / 4)).Nodup) :
    maskBits (rankMask l) = 5 := by
  have hfc : bitsAsc (rankMask l) =
      (List.range 13).filter (fun i => decide (i ∈ l.map (fun c => (c - 1) / 4))) := by
    unfold bitsAsc
    apply List.filter_congr
    intro i _
    rw [Bool.eq_iff_iff, decide_eq_true_eq, rankMask_testBit, List.mem_map]
  have hperm : ((List.range 13).filter
      (fun i => decide (i ∈ l.map (fun c => (c - 1) / 4)))).Perm
      (l.map (fun c => (c - 1) / 4)) := by
    rw [List.perm_ext_iff_of_nodup (List.Nodup.filter _ (List.nodup_range 13)) hnd]
    intro a
    rw [List.mem_filter]
    constructor
    · rintro ⟨_, ha⟩; exact of_decide_eq_true ha
    · intro ha
      refine ⟨?_, decide_eq_true ha⟩
      obtain ⟨c, hc, hca⟩ := List.mem_map.mp ha
      have := hv c hc
      rw [List.mem_range]
      omega
  unfold maskBits
  rw [hfc, hperm.length_eq, List.length_map, hlen]

theorem UNIQUE5_ne_zero (m : Nat) (hm : m < 8192) (h5 : maskBits m = 5) :
    UNIQUE5 m ≠ 0 := by
  unfold UNIQUE5
  by_cases hs : m ∈ straightList
  · rw [if_pos ⟨hm, hs⟩]
    omega
  · rw [if_neg (fun h => hs h.2), if_pos ⟨hm, h5⟩]
    have hsa : straightsAbove m ≤ 10 := by
      have := List.length_filter_le (fun s => decide (m < s)) straightList
      simpa [straightsAbove] using this
    omega

theorem exists_suit_iff_pairwise (l : List Nat) (hne : l ≠ []) :
    (∃ u, ∀ c ∈ l, (c - 1) % 4 = u) ↔
    (∀ x ∈ l, ∀ y ∈ l, (x - 1) % 4 = (y - 1) % 4) := by
  constructor
  · rintro ⟨u, hu⟩ x hx y hy
    rw [hu x hx, hu y hy]
  · intro h
    cases l with
    | nil => exact absurd rfl hne
    | cons c0 rest =>
      exact ⟨(c0 - 1) % 4, fun c hc =>
        h c hc c0 (List.mem_cons_self c0 rest)⟩

/-- C3: for every 5-card hand of cards in [1,52] whose 5 rank indices are
pairwise distinct (so the unique-pattern table yields a value v): if all
5 cards share one suit and v < 1610 the result is v - 1599 (straight
flush); if all 5 cards share one suit and v >= 1610 the result is
v - 5863 (flush); if the cards do not all share one suit the result is v
unchanged (straight or high card). -/
theorem eval5_distinct_rank_banding (l : List Nat) (hlen : l.length = 5)
    (hv : ∀ c ∈ l, 1 ≤ c ∧ c ≤ 52)
    (hnd : (l.map (fun c => (c - 1) / 4)).Nodup) :
    ((∃ u, ∀ c ∈ l, (c - 1) % 4 = u) →
      (UNIQUE5 (rankMask l) < 1610 → eval5Cards_ l = UNIQUE5 (rankMask l) - 1599) ∧
      (1610 ≤ UNIQUE5 (rankMask l) → eval5Cards_ l = UNIQUE5 (rankMask l) - 5863)) ∧
    (¬ (∃ u, ∀ c ∈ l, (c - 1) % 4 = u) → eval5Cards_ l = UNIQUE5 (rankMask l)) := by
  have hne : l ≠ [] := by intro h; rw [h] at hlen; exact absurd hlen (by decide)
  have hne0 : UNIQUE5 (rankMask l) ≠ 0 :=
    UNIQUE5_ne_zero _ (rankMask_lt l hv) (maskBits_of_nodup l hlen hv hnd)
  have hflush : flushCheck l = true ↔ (∃ u, ∀ c ∈ l, (c - 1) % 4 = u) :=
    ((flushCheck_iff_pairwise l hne).trans (pairwise_suit_iff l hv)).trans
      (exists_suit_iff_pairwise l hne).symm
  constructor
  · intro hu
    have hf : flushCheck l = true := hflush.mpr hu
    constructor
    · intro hlt
      simp only [eval5Cards_]
      rw [if_pos hne0, if_pos hf, if_pos hlt]
    · intro hge
      simp only [eval5Cards_]
      rw [if_pos hne0, if_pos hf, if_neg (by omega)]
  · intro hu
    have hf : ¬ (flushCheck l = true) := fun h => hu (hflush.mp h)
    simp only [eval5Cards_]
    rw [if_pos hne0, if_neg hf]

theorem eval5_distinct_rank_banding_witness :
    eval5Cards_ [49, 45, 41, 37, 33] = UNIQUE5 (rankMask [49, 45, 41, 37, 33]) - 1599 := by
  exact ((eval5_distinct_rank_banding [49, 45, 41, 37, 33]
    (by decide) (by decide) (by decide)).1 ⟨0, by decide⟩).1 (by decide)

/-! ### The 5/6/7-card dispatcher poker.cards.evalHand -/

/-- Subset enumeration of the 6-card branch of evalHand: for i in 0..5
collect the cards with index different from i, in loop order. -/
def omit1 : List Nat → List (List Nat)
  | [] => []
  | x :: xs => xs :: (omit1 xs).map (fun ys => x :: ys)

/-- Subset enumeration of the 7-card branch of evalHand: for i < j
collect the cards with index different from i and j, in loop order. -/
def omit2 : List Nat → List (List Nat)
  | [] => []
  | x :: xs => omit1 xs ++ (omit2 xs).map (fun ys => x :: ys)

/-- Minimum step of evalHand: if (hand < bestHand) bestHand = hand. -/
def bestStep (b h : Nat) : Nat := if h < b then h else b

/-- Size dispatch of poker.cards.evalHand on the decoded card list:
5 cards go straight to eval5Cards_, 6 and 7 cards take the minimum of
eval5Cards_ over the omit-one / omit-two subsets starting from
bestHand = 9999, any other size hits goog.asserts.fail (none). -/
def evalCards (l : List Nat) : Option Nat :=
  if l.length = 5 then some (eval5Cards_ l)
  else if l.length = 6 then some (((omit1 l).map eval5Cards_).foldl bestStep 9999)
  else if l.length = 7 then some (((omit2 l).map eval5Cards_).foldl bestStep 9999)
  else none

/-- Argument decoding of evalHand: a number is taken as the composite
code directly, a string goes through fromString first; then the base-53
digit loop pushes the cards least-significant first. -/
def decodeArg : Nat ⊕ String → Option (List Nat)
  | Sum.inl n => some (digits53 n)
  | Sum.inr s => (fromString s).map digits53

/-- JavaScript truthiness of the optional second argument: the number 0
and the empty string are falsy. -/
def isTruthy : Nat ⊕ String → Bool
  | Sum.inl n => n != 0
  | Sum.inr s => s != ""

/-- Card collection of poker.cards.evalHand: decode the first argument,
then append the cards of the second argument when it is given and truthy. -/
def allCardsOf (a : Nat ⊕ String) (b : Option (Nat ⊕ String)) : Option (List Nat) :=
  (decodeArg a).bind fun l1 =>
    (match b with
     | none => some []
     | some v => if isTruthy v then decodeArg v else some []).map fun l2 => l1 ++ l2

/-- poker.cards.evalHand: collect all cards, then dispatch on the count. -/
def evalHand (a : Nat ⊕ String) (b : Option (Nat ⊕ String)) : Option Nat :=
  match allCardsOf a b with
  | none => none
  | some l => evalCards l

/-- C8: for every input (one or two decoded card sequences), if the
combined decoded card count is 5, 6 or 7 then evaluate succeeds with a
strength, and otherwise it fails with the hand-size assertion and returns
no strength. -/
theorem evalHand_hand_size (a : Nat ⊕ String) (b : Option (Nat ⊕ String))
    (l : List Nat) (hdec : allCardsOf a b = some l) :
    ((l.length = 5 ∨ l.length = 6 ∨ l.length = 7) → (evalHand a b).isSome = true) ∧
    (¬ (l.length = 5 ∨ l.length = 6 ∨ l.length = 7) → evalHand a b = none) := by
  have he : evalHand a b = evalCards l := by
    unfold evalHand
    rw [hdec]
  rw [he]
  unfold evalCards
  constructor
  · rintro (h | h | h) <;> simp [h]
  · intro h
    push_neg at h
    rw [if_neg h.1, if_neg h.2.1, if_neg h.2.2]

theorem evalHand_hand_size_witness :
    ((([33, 37, 41, 45, 49] : List Nat).length = 5 ∨
      ([33, 37, 41, 45, 49] : List Nat).length = 6 ∨
      ([33, 37, 41, 45, 49] : List Nat).length = 7) →
      (evalHand (Sum.inr "sAsKsQsJsT") none).isSome = true) ∧
    (¬ (([33, 37, 41, 45, 49] : List Nat).length = 5 ∨
      ([33, 37, 41, 45, 49] : List Nat).length = 6 ∨
      ([33, 37, 41, 45, 49] : List Nat).length = 7) →
      evalHand (Sum.inr "sAsKsQsJsT") none = none) := by
  exact evalHand_hand_size (Sum.inr "sAsKsQsJsT") none [33, 37, 41, 45, 49] (by decide)

/-- C10: a falsy second argument is treated as absent — the integer 0
(the empty composite code) and the empty string contribute no cards and
cause no error, for every first argument. -/
theorem evalHand_falsy_other (a : Nat ⊕ String) :
    evalHand a (some (Sum.inl 0)) = evalHand a none ∧
    evalHand a (some (Sum.inr "")) = evalHand a none := by
  constructor <;> rfl

theorem UNIQUE5_le (m : Nat) : UNIQUE5 m ≤ 7472 := by
  unfold UNIQUE5
  split_ifs with h1 h2
  · have := List.indexOf_lt_length.mpr h1.2
    have hlen : straightList.length = 10 := by decide
    omega
  · have hcol : 1286 - colexRank m ≤ 1286 := Nat.sub_le _ _
    omega
  · omega

theorem pairLookup_le (p : Nat) : pairLookup p ≤ 6185 := by
  simp only [pairLookup]
  have hlen : ∀ q : Nat → Bool, ((List.range 13).filter q).length ≤ 13 := by
    intro q
    have := List.length_filter_le q (List.range 13)
    simpa using this
  split
  · rename_i q k h1 h2 h3 h4
    have := hlen (fun r => decide (r ≠ q ∧ k < r))
    omega
  · rename_i t p2 h1 h2 h3 h4
    have := hlen (fun r => decide (r ≠ t ∧ p2 < r))
    omega
  · omega
  · rename_i p2 p1 k h1 h2 h3 h4
    have := hlen (fun r => decide (r ≠ p1 ∧ r ≠ p2 ∧ k < r))
    omega
  · omega
  · omega

theorem eval5_lt (cards : List Nat) : eval5Cards_ cards < 9999 := by
  simp only [eval5Cards_]
  have h1 := UNIQUE5_le (rankMask cards)
  have h2 := pairLookup_le (primeProduct cards)
  have h3 : UNIQUE5 (rankMask cards) - 1599 ≤ UNIQUE5 (rankMask cards) := Nat.sub_le _ _
  have h4 : UNIQUE5 (rankMask cards) - 5863 ≤ UNIQUE5 (rankMask cards) := Nat.sub_le _ _
  split_ifs <;> omega

theorem bestStep_eq_min : bestStep = fun b h => min b h := by
  funext b h
  unfold bestStep
  rw [Nat.min_def]
  split_ifs <;> omega

theorem foldl_min_perm {xs ys : List Nat} (h : xs.Perm ys) :
    ∀ b, xs.foldl (fun b h => min b h) b = ys.foldl (fun b h => min b h) b := by
  induction h with
  | nil => intro b; rfl
  | cons x _ ih =>
    intro b
    simp only [List.foldl_cons]
    exact ih (min b x)
  | swap x y l =>
    intro b
    simp only [List.foldl_cons]
    rw [min_right_comm]
  | trans _ _ ih1 ih2 =>
    intro b
    rw [ih1 b, ih2 b]

theorem foldl_min_9999 (xs : List Nat) (hne : xs ≠ []) (hb : ∀ x ∈ xs, x < 9999) :
    some (xs.foldl bestStep 9999) = xs.min? := by
  cases xs with
  | nil => exact absurd rfl hne
  | cons y ys =>
    show some (List.foldl bestStep (bestStep 9999 y) ys) = some (List.foldl min y ys)
    have hy : bestStep 9999 y = y := by
      unfold bestStep
      rw [if_pos (hb y (List.mem_cons_self y ys))]
    rw [hy, bestStep_eq_min]

theorem min?_perm {xs ys : List Nat} (h : xs.Perm ys) : xs.min? = ys.min? := by
  cases xs with
  | nil =>
    have : ys = [] := h.symm.eq_nil
    rw [this]
  | cons x xs' =>
    have hiff : ∀ {zs : List Nat} {a : Nat},
        zs.min? = some a ↔ a ∈ zs ∧ ∀ b ∈ zs, a ≤ b :=
      fun {zs a} => List.min?_eq_some_iff (fun c => Nat.le_refl c)
        (fun c d => min_choice c d) (fun c d e => le_min_iff)
    have hx : (x :: xs').min? = some (List.foldl min x xs') := rfl
    obtain ⟨hmem, hbound⟩ := hiff.mp hx
    rw [hx]
    symm
    rw [hiff]
    exact ⟨h.mem_iff.mp hmem, fun b hb => hbound b (h.mem_iff.mpr hb)⟩

theorem sublistsLen_len_self : ∀ (l : List Nat), List.sublistsLen l.length l = [l] := by
  intro l
  induction l with
  | nil => rfl
  | cons x xs ih =>
    show List.sublistsLen (xs.length + 1) (x :: xs) = [x :: xs]
    rw [List.sublistsLen_succ_cons,
      List.sublistsLen_of_length_lt (by omega : xs.length < xs.length + 1), ih]
    rfl

theorem length_omit1 : ∀ (l : List Nat), (omit1 l).length = l.length := by
  intro l
  induction l with
  | nil => rfl
  | cons x xs ih =>
    show ((omit1 xs).map (fun ys => x :: ys)).length + 1 = xs.length + 1
    rw [List.length_map, ih]

theorem omit1_perm_sublistsLen :
    ∀ (l : List Nat) (n : Nat), l.length = n + 1 → (omit1 l).Perm (List.sublistsLen n l) := by
  intro l
  induction l with
  | nil => intro n h; exact absurd h (by simp)
  | cons x xs ih =>
    intro n h
    cases n with
    | zero =>
      have hxs : xs = [] := by
        have : xs.length = 0 := by simpa using h
        exact List.length_eq_zero.mp this
      subst hxs
      rw [List.sublistsLen_zero]
      exact List.Perm.refl _
    | succ m =>
      have hxs : xs.length = m + 1 := by simpa using h
      show (xs :: (omit1 xs).map (fun ys => x :: ys)).Perm _
      rw [List.sublistsLen_succ_cons]
      have hself : List.sublistsLen (m + 1) xs = [xs] := by
        rw [← hxs]
        exact sublistsLen_len_self xs
      rw [hself]
      show (xs :: (omit1 xs).map (fun ys => x :: ys)).Perm
        ([xs] ++ (List.sublistsLen m xs).map (List.cons x))
      exact List.Perm.cons xs ((ih m hxs).map (List.cons x))

theorem omit2_perm_sublistsLen :
    ∀ (l : List Nat) (n : Nat), l.length = n + 2 → (omit2 l).Perm (List.sublistsLen n l) := by
  intro l
  induction l with
  | nil => intro n h; exact absurd h (by simp)
  | cons x xs ih =>
    intro n h
    have hxs : xs.length = n + 1 := by simpa using h
    cases n with
    | zero =>
      obtain ⟨y, hy⟩ : ∃ y, xs = [y] := by
        cases xs with
        | nil => exact absurd hxs (by simp)
        | cons y ys =>
          have : ys = [] := List.length_eq_zero.mp (by simpa using hxs)
          exact ⟨y, by rw [this]⟩
      subst hy
      rw [List.sublistsLen_zero]
      rfl
    | succ m =>
      show (omit1 xs ++ (omit2 xs).map (fun ys => x :: ys)).Perm _
      rw [List.sublistsLen_succ_cons]
      exact List.Perm.append (omit1_perm_sublistsLen xs (m + 1) hxs)
        ((ih m hxs).map (List.cons x))

/-- C1: evaluate on a hand of 6 cards returns the minimum of the 5-card
scorer over all 6 size-5 subsets (each omitting exactly one card), and on
a hand of 7 cards the minimum over all 21 size-5 subsets (each omitting
exactly two cards): on any 6- or 7-card list the result equals the
minimum eval5Cards_ value over all its size-5 sublists, of which there
are 6 respectively 21. -/
theorem evalHand_subset_min (l : List Nat) (h : l.length = 6 ∨ l.length = 7) :
    evalCards l = ((List.sublistsLen 5 l).map eval5Cards_).min? ∧
    ((l.length = 6 → (List.sublistsLen 5 l).length = 6) ∧
     (l.length = 7 → (List.sublistsLen 5 l).length = 21)) := by
  have hcount : (List.sublistsLen 5 l).length = l.length.choose 5 :=
    List.length_sublistsLen 5 l
  have main : evalCards l = ((List.sublistsLen 5 l).map eval5Cards_).min? := by
    rcases h with h6 | h7
    · have hperm : (omit1 l).Perm (List.sublistsLen 5 l) :=
        omit1_perm_sublistsLen l 5 (by omega)
      have hmap := hperm.map eval5Cards_
      have hlen1 : ((omit1 l).map eval5Cards_).length = 6 := by
        rw [List.length_map, length_omit1, h6]
      unfold evalCards
      rw [if_neg (by omega), if_pos h6]
      rw [foldl_min_9999 ((omit1 l).map eval5Cards_)
        (by
          intro hemp
          rw [hemp] at hlen1
          exact absurd hlen1 (by decide))
        (by
          intro x hx
          obtain ⟨s, _, rfl⟩ := List.mem_map.mp hx
          exact eval5_lt s)]
      exact min?_perm hmap
    · have hperm : (omit2 l).Perm (List.sublistsLen 5 l) :=
        omit2_perm_sublistsLen l 5 (by omega)
      have hmap := hperm.map eval5Cards_
      have hlen2 : ((omit2 l).map eval5Cards_).length = 21 := by
        rw [List.length_map, hperm.length_eq, hcount, h7]
        decide
      unfold evalCards
      rw [if_neg (by omega), if_neg (by omega), if_pos h7]
      rw [foldl_min_9999 ((omit2 l).map eval5Cards_)
        (by
          intro hemp
          rw [hemp] at hlen2
          exact absurd hlen2 (by decide))
        (by
          intro x hx
          obtain ⟨s, _, rfl⟩ := List.mem_map.mp hx
          exact eval5_lt s)]
      exact min?_perm hmap
  refine ⟨main, fun h6 => ?_, fun h7 => ?_⟩
  · rw [hcount, h6]
    decide
  · rw [hcount, h7]
    decide

theorem evalHand_subset_min_witness :
    evalCards [49, 45, 41, 37, 33, 1] =
      ((List.sublistsLen 5 [49, 45, 41, 37, 33, 1]).map eval5Cards_).min? ∧
    (([49, 45, 41, 37, 33, 1] : List Nat).length = 6 →
      (List.sublistsLen 5 [49, 45, 41, 37, 33, 1]).length = 6) ∧
    (([49, 45, 41, 37, 33, 1] : List Nat).length = 7 →
      (List.sublistsLen 5 [49, 45, 41, 37, 33, 1]).length = 21) := by
  exact evalHand_subset_min [49, 45, 41, 37, 33, 1] (Or.inl (by decide))

theorem foldl_perm_of_comm {f : Nat → Nat → Nat}
    (hf : ∀ b x y, f (f b x) y = f (f b y) x) {xs ys : List Nat} (h : xs.Perm ys) :
    ∀ b, xs.foldl f b = ys.foldl f b := by
  induction h with
  | nil => intro b; rfl
  | cons x _ ih =>
    intro b
    simp only [List.foldl_cons]
    exact ih (f b x)
  | swap x y l =>
    intro b
    simp only [List.foldl_cons]
    rw [hf]
  | trans _ _ ih1 ih2 =>
    intro b
    rw [ih1 b, ih2 b]

theorem rankMask_perm {l l' : List Nat} (h : l.Perm l') : rankMask l = rankMask l' := by
  unfold rankMask
  exact foldl_perm_of_comm
    (fun b x y => by
      rw [Nat.or_assoc, Nat.or_assoc, Nat.or_comm (1 <<< ((x - 1) / 4)) (1 <<< ((y - 1) / 4))])
    h 0

theorem primeProduct_perm {l l' : List Nat} (h : l.Perm l') :
    primeProduct l = primeProduct l' := by
  unfold primeProduct
  exact foldl_perm_of_comm (fun b x y => by rw [Nat.mul_assoc, Nat.mul_assoc,
    Nat.mul_comm (RANK_PRIMES.getD ((x - 1) / 4) 0) (RANK_PRIMES.getD ((y - 1) / 4) 0)]) h 1

theorem flushCheck_perm {l l' : List Nat} (h : l.Perm l') : flushCheck l = flushCheck l' := by
  cases hl : l with
  | nil =>
    subst hl
    have : l' = [] := h.symm.eq_nil
    rw [this]
  | cons c0 rest =>
    subst hl
    have hne : (c0 :: rest) ≠ [] := by simp
    have hne2 : l' ≠ [] := by
      intro he
      rw [he] at h
      exact absurd h.eq_nil (by simp)
    rw [Bool.eq_iff_iff, flushCheck_iff_pairwise _ hne, flushCheck_iff_pairwise l' hne2]
    constructor
    · intro hp x hx y hy
      exact hp x (h.mem_iff.mpr hx) y (h.mem_iff.mpr hy)
    · intro hp x hx y hy
      exact hp x (h.mem_iff.mp hx) y (h.mem_iff.mp hy)

theorem eval5_perm {l l' : List Nat} (h : l.Perm l') : eval5Cards_ l = eval5Cards_ l' := by
  simp only [eval5Cards_]
  rw [rankMask_perm h, primeProduct_perm h, flushCheck_perm h]

/-- eval5Cards_ as a function of the multiset of cards (well defined by
eval5_perm). -/
def eval5M : Multiset Nat → Nat :=
  Quotient.lift eval5Cards_ (fun _ _ hab => eval5_perm hab)

theorem eval5_eq_eval5M : (fun s : List Nat => eval5Cards_ s) = fun s : List Nat => eval5M ↑s := by
  funext s
  rfl

theorem coe_cons_comp (x : Nat) :
    ((fun s : List Nat => (s : Multiset Nat)) ∘ fun ys => x :: ys) =
    (fun t : Multiset Nat => x ::ₘ t) ∘ (fun s : List Nat => (s : Multiset Nat)) := by
  funext s
  show ((x :: s : List Nat) : Multiset Nat) = x ::ₘ (s : Multiset Nat)
  exact (Multiset.cons_coe x s).symm

theorem omit1_toMS : ∀ (l : List Nat),
    (omit1 l).map (fun s : List Nat => (s : Multiset Nat)) =
    l.map (fun y => ((l : Multiset Nat)).erase y) := by
  intro l
  induction l with
  | nil => rfl
  | cons x xs ih =>
    show ((xs : Multiset Nat) ::
        ((omit1 xs).map (fun ys => x :: ys)).map (fun s : List Nat => (s : Multiset Nat))) = _
    rw [List.map_map, coe_cons_comp, ← List.map_map, ih, List.map_map]
    show _ = ((x :: xs : List Nat) : Multiset Nat).erase x ::
      xs.map (fun y => ((x :: xs : List Nat) : Multiset Nat).erase y)
    rw [← Multiset.cons_coe, Multiset.erase_cons_head]
    congr 1
    apply List.map_congr_left
    intro y hy
    show x ::ₘ ((xs : Multiset Nat)).erase y = (x ::ₘ (xs : Multiset Nat)).erase y
    by_cases hyx : y = x
    · subst hyx
      rw [Multiset.erase_cons_head, Multiset.cons_erase (Multiset.mem_coe.mpr hy)]
    · rw [Multiset.erase_cons_tail _ (fun hxe => hyx hxe.symm)]

theorem omit1_map_perm {l l' : List Nat} (h : l.Perm l') :
    ((omit1 l).map (fun s : List Nat => (s : Multiset Nat))).Perm
    ((omit1 l').map (fun s : List Nat => (s : Multiset Nat))) := by
  rw [omit1_toMS, omit1_toMS, Multiset.coe_eq_coe.mpr h]
  exact h.map _

theorem omit2_map_perm {l l' : List Nat} (h : l.Perm l') :
    ((omit2 l).map (fun s : List Nat => (s : Multiset Nat))).Perm
    ((omit2 l').map (fun s : List Nat => (s : Multiset Nat))) := by
  induction h with
  | nil => exact List.Perm.refl _
  | @cons x l1 l2 hperm ih =>
    show ((omit1 l1 ++ (omit2 l1).map (fun ys => x :: ys)).map _).Perm
         ((omit1 l2 ++ (omit2 l2).map (fun ys => x :: ys)).map _)
    rw [List.map_append, List.map_append, List.map_map, List.map_map,
      coe_cons_comp, ← List.map_map, ← List.map_map]
    exact List.Perm.append (omit1_map_perm hperm) (ih.map _)
  | swap x y L =>
    show ((omit1 (x :: L) ++ (omit2 (x :: L)).map (fun ys => y :: ys)).map _).Perm
         ((omit1 (y :: L) ++ (omit2 (y :: L)).map (fun ys => x :: ys)).map _)
    have expand : ∀ a b : Nat,
        (omit1 (a :: L) ++ (omit2 (a :: L)).map (fun ys => b :: ys)).map
          (fun s : List Nat => (s : Multiset Nat)) =
        ((L : Multiset Nat) ::
          ((omit1 L).map (fun s : List Nat => ((a :: s : List Nat) : Multiset Nat)) ++
           ((omit1 L).map (fun s : List Nat => ((b :: s : List Nat) : Multiset Nat)) ++
            (omit2 L).map (fun s : List Nat => ((b :: a :: s : List Nat) : Multiset Nat))))) := by
      intro a b
      show ((L :: (omit1 L).map (fun ys => a :: ys)) ++
        ((omit1 L ++ (omit2 L).map (fun ys => a :: ys)).map (fun ys => b :: ys))).map
          (fun s : List Nat => (s : Multiset Nat)) = _
      simp only [List.map_cons, List.map_append, List.map_map, List.cons_append,
        List.append_assoc, Function.comp]
      rfl
    rw [expand x y, expand y x]
    apply List.Perm.cons
    have hdc : (omit2 L).map (fun s : List Nat => ((y :: x :: s : List Nat) : Multiset Nat)) =
        (omit2 L).map (fun s : List Nat => ((x :: y :: s : List Nat) : Multiset Nat)) := by
      apply List.map_congr_left
      intro t _
      exact Multiset.coe_eq_coe.mpr (List.Perm.swap x y t)
    rw [hdc]
    rw [← List.append_assoc, ← List.append_assoc]
    exact List.Perm.append (List.perm_append_comm) (List.Perm.refl _)
  | trans _ _ ih1 ih2 => exact ih1.trans ih2

theorem map_eval5_omit1_perm {l l' : List Nat} (h : l.Perm l') :
    ((omit1 l).map eval5Cards_).Perm ((omit1 l').map eval5Cards_) := by
  have h1 : (omit1 l).map eval5Cards_ =
      ((omit1 l).map (fun s : List Nat => (s : Multiset Nat))).map eval5M := by
    rw [List.map_map]
    rfl
  have h2 : (omit1 l').map eval5Cards_ =
      ((omit1 l').map (fun s : List Nat => (s : Multiset Nat))).map eval5M := by
    rw [List.map_map]
    rfl
  rw [h1, h2]
  exact (omit1_map_perm h).map _

theorem map_eval5_omit2_perm {l l' : List Nat} (h : l.Perm l') :
    ((omit2 l).map eval5Cards_).Perm ((omit2 l').map eval5Cards_) := by
  have h1 : (omit2 l).map eval5Cards_ =
      ((omit2 l).map (fun s : List Nat => (s : Multiset Nat))).map eval5M := by
    rw [List.map_map]
    rfl
  have h2 : (omit2 l').map eval5Cards_ =
      ((omit2 l').map (fun s : List Nat => (s : Multiset Nat))).map eval5M := by
    rw [List.map_map]
    rfl
  rw [h1, h2]
  exact (omit2_map_perm h).map _

theorem evalCards_perm {l l' : List Nat} (h : l.Perm l') : evalCards l = evalCards l' := by
  have hlen := h.length_eq
  unfold evalCards
  rw [← hlen]
  split_ifs with h5 h6 h7
  · rw [eval5_perm h]
  · rw [bestStep_eq_min]
    exact congrArg some (foldl_min_perm (map_eval5_omit1_perm h) 9999)
  · rw [bestStep_eq_min]
    exact congrArg some (foldl_min_perm (map_eval5_omit2_perm h) 9999)
  · rfl

/-- C9: evaluate is invariant under permutation of its input cards — two
calls (any split across the two arguments, as strings or composite codes)
whose decoded card lists are permutations of each other return the same
result: the rank-mask OR, the prime product, the all-suits-equal test and
the minimum over subsets are all order-independent. -/
theorem evalHand_perm (a1 : Nat ⊕ String) (b1 : Option (Nat ⊕ String))
    (a2 : Nat ⊕ String) (b2 : Option (Nat ⊕ String)) (l1 l2 : List Nat)
    (h1 : allCardsOf a1 b1 = some l1) (h2 : allCardsOf a2 b2 = some l2)
    (hp : l1.Perm l2) :
    evalHand a1 b1 = evalHand a2 b2 := by
  have e1 : evalHand a1 b1 = evalCards l1 := by
    unfold evalHand
    rw [h1]
  have e2 : evalHand a2 b2 = evalCards l2 := by
    unfold evalHand
    rw [h2]
  rw [e1, e2]
  exact evalCards_perm hp

theorem evalHand_perm_witness :
    evalHand (Sum.inr "sAsKsQsJsT") none = evalHand (Sum.inr "sTsJsQsKsA") none := by
  exact evalHand_perm (Sum.inr "sAsKsQsJsT") none (Sum.inr "sTsJsQsKsA") none
    [33, 37, 41, 45, 49] [49, 45, 41, 37, 33] (by decide) (by decide) (by decide)

end Poker

